import Mathlib

/-!
A shallow embedding of the git merge engine and repository cache of the
eips-wg preprocessor (`src/git.rs`, `src/cache.rs`).

The embedding models: the string helpers the code relies on
(`starts_with`, `ends_with`, `trim_end_matches('/')`), git trees as seen by
the pre-order tree walk (`TreeWalkMode::PreOrder` with `Skip`/`Abort`),
conflict checking against the base tree (`check_conflict`), the upsert
accumulation and `TreeUpdateBuilder::create_updated`, the merge loop that
commits one merge commit per other repository (`SourceWithUpstream::merge`),
the dirty check (`check_dirty`), the merge-base diff
(`SourceWithUpstream::changed_files`), family identification
(`RepositoryUse::identify`), and the cached repository resolution
(`Cache::repo`).

The constants `CONTENT_DIR` and `BUILD_DIR` live in the crate root, which is
not among the provided sources; every definition is therefore parameterised
by the content-root name and the build-directory name, which is all the
claims need.
-/

deriving instance DecidableEq for Except

namespace EipsPre

/-- Decidable character-list prefix test: `prefixOfChars p s` holds when `p`
is a prefix of `s`. -/
def prefixOfChars : List Char → List Char → Bool
  | [], _ => true
  | _ :: _, [] => false
  | c :: cs, d :: ds => c == d && prefixOfChars cs ds

/-- Rust `str::starts_with`: `strStartsWith s p` is true when `p` is a prefix
of `s`. -/
def strStartsWith (s p : String) : Bool := prefixOfChars p.data s.data

/-- Rust `str::ends_with`: `strEndsWith s p` is true when `p` is a suffix of
`s`. -/
def strEndsWith (s p : String) : Bool := prefixOfChars p.data.reverse s.data.reverse

/-- Rust `str::trim_end_matches('/')`: drop every trailing slash. -/
def trimEndSlashes (s : String) : String :=
  ⟨(s.data.reverse.dropWhile (fun c => c == '/')).reverse⟩

/-- git2 `ObjectType`, restricted to the kinds the walk distinguishes. -/
inductive GKind where
  | blob
  | tree
  | commit
  | tag
deriving DecidableEq

mutual

/-- A tree entry as delivered by the pre-order walk of the incoming tree:
`name()` (which may be unavailable), `filemode()`, `id()`, `kind()`, and the
child entries when the entry is itself a subtree. -/
inductive GEntry where
  | mk : Option String → Nat → Nat → Option GKind → GForest → GEntry

/-- The entry list of a tree. -/
inductive GForest where
  | nil : GForest
  | cons : GEntry → GForest → GForest

end

def GEntry.name : GEntry → Option String
  | .mk n _ _ _ _ => n

def GEntry.filemode : GEntry → Nat
  | .mk _ fm _ _ _ => fm

def GEntry.oid : GEntry → Nat
  | .mk _ _ i _ _ => i

def GEntry.kind : GEntry → Option GKind
  | .mk _ _ _ k _ => k

def GEntry.children : GEntry → GForest
  | .mk _ _ _ _ c => c

def GForest.append : GForest → GForest → GForest
  | .nil, g => g
  | .cons e f, g => .cons e (f.append g)

def GForest.toList : GForest → List GEntry
  | .nil => []
  | .cons e f => e :: f.toList

/-- An entry of the base (`master`) tree at some full path, as
`Tree::get_path` reports it: filemode, kind, object id. -/
structure BEntry where
  filemode : Nat
  kind : Option GKind
  oid : Nat
deriving DecidableEq

/-- The base tree, modelled extensionally as a finite map from full slash
path to the entry found there by `Tree::get_path`. -/
abbrev Base : Type := List (String × BEntry)

/-- `Tree::get_path` on the extensional base tree. -/
def get_path : Base → String → Option BEntry
  | [], _ => none
  | (q, e) :: t, p => if q = p then some e else get_path t p

/-- Which attribute `check_conflict` found mismatched, in the order the
source tests them (filemode, then kind, then id). -/
inductive ConflictReason where
  | filemode
  | kind
  | id
deriving DecidableEq

/-- The word the source interpolates into the conflict message. -/
def ConflictReason.txt : ConflictReason → String
  | .filemode => "filemode"
  | .kind => "kind"
  | .id => "id"

/-- The errors the merge walk can raise; in the source they are all
`Error::UpdateTree { msg }`, with `msg` rendered by `MergeErr.msg` below. -/
inductive MergeErr where
  | unnamedEntry (parent : String)
  | unknownKind (path : String) (k : Option GKind)
  | conflict (path : String) (reason : ConflictReason)
deriving DecidableEq

/-- Rust `{:?}` rendering of an `Option<ObjectType>`. -/
def kindDebug : Option GKind → String
  | none => "None"
  | some .blob => "Some(Blob)"
  | some .tree => "Some(Tree)"
  | some .commit => "Some(Commit)"
  | some .tag => "Some(Tag)"

/-- The exact `msg` strings the source formats for each walk error. -/
def MergeErr.msg : MergeErr → String
  | .unnamedEntry a => "tree entry without name in `" ++ a ++ "`"
  | .unknownKind p k => "unknown blob type `" ++ kindDebug k ++ "` for `" ++ p ++ "`"
  | .conflict p r => "conflicting path `" ++ p ++ "` (" ++ ConflictReason.txt r ++ ")"

/-- `check_conflict(master_tree, path, entry)` from `src/git.rs`: if the base
tree has an entry at `path`, its filemode, kind and id must each match the
incoming entry's, tested in that order; the first mismatch aborts. -/
def check_conflict (master_tree : Base) (path : String) (entry : GEntry) :
    Except MergeErr Unit :=
  match get_path master_tree path with
  | none => .ok ()
  | some original =>
    if original.filemode ≠ entry.filemode then .error (.conflict path .filemode)
    else if original.kind ≠ entry.kind then .error (.conflict path .kind)
    else if original.oid ≠ entry.oid then .error (.conflict path .id)
    else .ok ()

/-- One recorded `TreeUpdateBuilder::upsert(path, id, filemode)`. -/
structure Upsert where
  path : String
  oid : Nat
  filemode : Nat
deriving DecidableEq

/-- `git2::FileMode::Blob` (octal 100644). -/
def FILEMODE_BLOB : Nat := 33188

/-- The walk's skip condition from `SourceWithUpstream::merge`:
`!a.starts_with(&prefix) && (!a.is_empty() || b.name() != Some(CONTENT_DIR))`
where `prefix = CONTENT_DIR ++ "/"` and `a` is the parent path. -/
def skipEntry (cd a : String) (nm : Option String) : Bool :=
  !(strStartsWith a (cd ++ "/")) && (!(a == "") || !(nm == some cd))

mutual

/-- The body of the walk callback in `SourceWithUpstream::merge`, applied to
one entry with parent path `a`: skip filtered entries, abort on a nameless
entry, upsert blobs after `check_conflict`, descend into subtrees, abort on
any other kind. Returns the upserts recorded under this entry. -/
def walkEntry (cd : String) (base : Base) (a : String) :
    GEntry → Except MergeErr (List Upsert)
  | .mk nm fm oid k children =>
    if skipEntry cd a nm then .ok []
    else
      match nm with
      | none => .error (.unnamedEntry a)
      | some name =>
        match k with
        | some .blob =>
          match check_conflict base (a ++ name) (.mk (some name) fm oid (some .blob) children) with
          | .error er => .error er
          | .ok _ => .ok [⟨a ++ name, oid, FILEMODE_BLOB⟩]
        | some .tree => walkForest cd base ((a ++ name) ++ "/") children
        | _ => .error (.unknownKind (a ++ name) k)

/-- The pre-order walk over an entry list: the first `Abort` stops the whole
walk; otherwise upserts accumulate in walk order. -/
def walkForest (cd : String) (base : Base) (a : String) :
    GForest → Except MergeErr (List Upsert)
  | .nil => .ok []
  | .cons e f =>
    match walkEntry cd base a e with
    | .error er => .error er
    | .ok us =>
      match walkForest cd base a f with
      | .error er => .error er
      | .ok vs => .ok (us ++ vs)

end

/-- Write one entry into the extensional base tree, replacing an existing
binding at the same path. -/
def setPath : Base → String → BEntry → Base
  | [], p, e => [(p, e)]
  | (q, x) :: t, p, e => if q = p then (p, e) :: t else (q, x) :: setPath t p e

/-- Apply one recorded upsert, as `TreeUpdateBuilder` does: the path now
holds a blob with the recorded id and filemode. -/
def applyUpsert (t : Base) (u : Upsert) : Base :=
  setPath t u.path ⟨u.filemode, some .blob, u.oid⟩

/-- `TreeUpdateBuilder::create_updated`: apply every recorded upsert, in
order, to the base tree. -/
def create_updated (t : Base) (us : List Upsert) : Base := us.foldl applyUpsert t

/-- The pure tree-level merge of one incoming tree into the base tree: walk
the incoming tree from the root (parent path `""`), then apply the recorded
upserts; any walk error aborts with no tree produced. -/
def mergeInto (base : Base) (incoming : GForest) (cd : String) : Except MergeErr Base :=
  match walkForest cd base "" incoming with
  | .error er => .error er
  | .ok us => .ok (create_updated base us)

/-- One fetched other-family repository: its fetched `master` head commit id
and its tree. -/
structure OtherRepo where
  headOid : Nat
  tree : GForest

/-- One merge commit as `Repository::commit` records it: its id, its tree,
and its parent ids in order. -/
structure CommitRec where
  oid : Nat
  tree : Base
  parents : List Nat
deriving DecidableEq

/-- The loop of `SourceWithUpstream::merge`: for each other repository, walk
its tree against the (fixed) local-head master tree, build the updated tree,
and commit it with parents `[local_head, master_other]`, advancing
`local_head` to the new commit. Fresh commit ids are drawn from a counter.
Returns the commits created and the final local head. -/
def mergeRun (cd : String) (master_tree : Base) :
    Nat → Nat → List OtherRepo → Except MergeErr (List CommitRec × Nat)
  | localHead, _, [] => .ok ([], localHead)
  | localHead, fresh, o :: os =>
    match walkForest cd master_tree "" o.tree with
    | .error er => .error er
    | .ok us =>
      let merged := create_updated master_tree us
      match mergeRun cd master_tree fresh (fresh + 1) os with
      | .error er => .error er
      | .ok (cs, finalHead) =>
        .ok (⟨fresh, merged, [localHead, o.headOid]⟩ :: cs, finalHead)

/-- Each commit's parents are `[previous local head, other head]`, the first
commit's previous head being the initial one and each later commit's being
the commit before it. -/
def parentsOk : Nat → List CommitRec → List OtherRepo → Prop
  | _, [], [] => True
  | h, c :: cs, o :: os => c.parents = [h, o.headOid] ∧ parentsOk c.oid cs os
  | _, _, _ => False

/-- The local head after a run: the last commit's id, or the initial head
when no commit was made. -/
def lastHead : Nat → List CommitRec → Nat
  | h, [] => h
  | _, c :: cs => lastHead c.oid cs

/-- One entry of `Repository::statuses`: its `path()`, which is `None` when
the path cannot be represented as a string. -/
structure StatusEntry where
  path : Option String
deriving DecidableEq

inductive DirtyError where
  | dirty
deriving DecidableEq

/-- The filter closure in `check_dirty`:
`x.path().map(|x| !x.trim_end_matches('/').ends_with(BUILD_DIR)).unwrap_or(false)`. -/
def dirtyFilter (bd : String) (e : StatusEntry) : Bool :=
  match e.path with
  | some p => !(strEndsWith (trimEndSlashes p) bd)
  | none => false

/-- `check_dirty` from `src/git.rs`, over the status list (untracked files
included): fail with `Dirty` when any entry survives the filter. -/
def check_dirty (bd : String) (statuses : List StatusEntry) : Except DirtyError Unit :=
  if statuses.any (dirtyFilter bd) then .error .dirty else .ok ()

/-- Modelled from the spec's words, for comparison only: a path lies
underneath the designated build-artifact directory. -/
def specUnderBuildDir (bd p : String) : Bool :=
  p == bd || strStartsWith p (bd ++ "/")

/-- A repository as `changed_files` sees it: which commit ids carry which
trees, and the `merge_base` computation. -/
structure RepoModel where
  commits : List (Nat × Base)
  mergeBaseOf : Nat → Nat → Option Nat

/-- `Repository::find_commit(oid)?.tree()`. -/
def commitTree : List (Nat × Base) → Nat → Option Base
  | [], _ => none
  | (k, v) :: t, n => if k = n then some v else commitTree t n

def keysOf (t : Base) : List String := t.map (fun x => x.1)

/-- `diff_tree_to_tree(old, new)` followed by
`deltas().filter_map(|d| d.new_file().path())`: one delta per path at which
the two trees disagree, reported at its new-file path. -/
def diffNewPaths (old new : Base) : List String :=
  ((keysOf old ++ keysOf new).dedup).filter
    (fun p => decide (get_path old p ≠ get_path new p))

/-- `SourceWithUpstream::changed_files`: the merge base of the local and
upstream heads, then the diff of the merge base's tree against the local
head's tree, returning every delta's new-file path. `none` models the error
paths (no merge base, missing commit). -/
def changed_files (r : RepoModel) (localHead upstreamHead : Nat) :
    Option (List String) :=
  match r.mergeBaseOf localHead upstreamHead with
  | none => none
  | some mb =>
    match commitTree r.commits mb, commitTree r.commits localHead with
    | some merge_base_tree, some master_tree =>
      some (diffNewPaths merge_base_tree master_tree)
    | _, _ => none

/-- `RepositoryUse::EIP_COMMIT`. -/
def EIP_COMMIT : String := "0f44e2b94df4e504bb7b912f56ebd712db2ad396"

/-- `RepositoryUse::ERC_COMMIT`. -/
def ERC_COMMIT : String := "8dd085d159cb123f545c272c0d871a5339550e79"

inductive RepositoryUse where
  | eips
  | ercs
deriving DecidableEq

/-- `Error::Identify { eips, ercs }`: which fingerprint resolved. -/
inductive IdentifyError where
  | identify (eips ercs : Bool)
deriving DecidableEq

/-- `RepositoryUse::identify`, over the repository's resolution predicate
(`revparse_single(c).is_ok()`). -/
def identify (resolves : String → Bool) : Except IdentifyError RepositoryUse :=
  let eip := resolves EIP_COMMIT
  let erc := resolves ERC_COMMIT
  match eip, erc with
  | true, false => .ok .eips
  | false, true => .ok .ercs
  | e, r => .error (.identify e r)

/-- The cached repository's object store: which revspecs resolve to which
object ids. -/
structure GitRepoState where
  objects : List (String × Nat)
deriving DecidableEq

def lookupStr : List (String × Nat) → String → Option Nat
  | [], _ => none
  | (k, v) :: t, s => if k = s then some v else lookupStr t s

/-- `Repository::revparse_single`, as resolution success or not-found. -/
def revparse_single (r : GitRepoState) (spec : String) : Option Nat :=
  lookupStr r.objects spec

/-- The remote at the url: the objects a fetch of `master` makes
resolvable. -/
structure Remote where
  masterObjects : List (String × Nat)
deriving DecidableEq

/-- `fetch(&repo, url, "master")`: the fetched objects join the local
store. -/
def fetchMaster (r : GitRepoState) (rem : Remote) : GitRepoState :=
  ⟨r.objects ++ rem.masterObjects⟩

inductive CacheError where
  | unresolved
deriving DecidableEq

/-- What one `Cache::repo` call produced: the cache directory it resolved,
the repository state it left behind, the object id it checked out detached,
and how many network fetches it performed. -/
structure RepoResult where
  dir : String
  state : GitRepoState
  checkedOut : Nat
  fetches : Nat
deriving DecidableEq

/-- The cache key `format!("git\0{url}")`. -/
def cacheRepoKey (url : String) : String := "git\x00" ++ url

/-- `Cache::repo(url, commit)`: resolve the cache directory for the key,
open-or-initialize the repository there (its persistent state is `loc`), try
to resolve `commit`; when it does not resolve, fetch `master` from the url
and retry once, failing if still unresolved; finally check out the resolved
object detached. -/
def cacheRepo (dirOf : String → String) (loc : GitRepoState) (rem : Remote)
    (url commit : String) : Except CacheError RepoResult :=
  let dir := dirOf (cacheRepoKey url)
  match revparse_single loc commit with
  | some oid => .ok ⟨dir, loc, oid, 0⟩
  | none =>
    let fetched := fetchMaster loc rem
    match revparse_single fetched commit with
    | some oid => .ok ⟨dir, fetched, oid, 1⟩
    | none => .error .unresolved

/-! Helper lemmas about the string primitives and the walk. -/

theorem prefixOfChars_append (p s t : List Char) (h : prefixOfChars p s = true) :
    prefixOfChars p (s ++ t) = true := by
  induction p generalizing s with
  | nil => simp [prefixOfChars]
  | cons c cs ih =>
    cases s with
    | nil => simp [prefixOfChars] at h
    | cons d ds =>
      simp only [prefixOfChars, Bool.and_eq_true] at h ⊢
      exact ⟨h.1, ih ds h.2⟩

theorem strStartsWith_append (a n p : String) (h : strStartsWith a p = true) :
    strStartsWith (a ++ n) p = true := by
  unfold strStartsWith at h ⊢
  rw [String.data_append]
  exact prefixOfChars_append _ _ _ h

theorem strStartsWith_empty_slash (cd : String) :
    strStartsWith "" (cd ++ "/") = false := by
  unfold strStartsWith
  rw [String.data_append]
  cases h : cd.data with
  | nil => rfl
  | cons c cs => rfl

theorem str_empty_append (s : String) : "" ++ s = s := by
  apply String.ext
  rw [String.data_append]
  rfl

theorem skipEntry_eq_false_iff (cd a : String) (nm : Option String) :
    skipEntry cd a nm = false ↔
      (strStartsWith a (cd ++ "/") = true ∨ (a = "" ∧ nm = some cd)) := by
  unfold skipEntry
  cases h1 : strStartsWith a (cd ++ "/") with
  | true => simp
  | false =>
    simp only [Bool.not_false, Bool.true_and]
    cases h2 : (a == "") with
    | false =>
      simp only [Bool.not_false, Bool.true_or]
      constructor
      · intro h; exact absurd h (by simp)
      · rintro (h | ⟨ha, _⟩)
        · exact absurd h (by simp [h1])
        · rw [ha] at h2; simp at h2
    | true =>
      have ha : a = "" := by
        exact beq_iff_eq.mp h2
      simp only [Bool.not_true, Bool.false_or, Bool.not_eq_false', beq_iff_eq, ha]
      simp

mutual

theorem walk_upsert_shape_entry (cd : String) (base : Base) (a : String) :
    ∀ (e : GEntry) (us : List Upsert), walkEntry cd base a e = .ok us →
      ∀ u ∈ us, (u.path = cd ∨ strStartsWith u.path (cd ++ "/") = true)
        ∧ u.filemode = FILEMODE_BLOB
  | .mk nm fm oid k children, us, hok => by
    unfold walkEntry at hok
    by_cases hs : skipEntry cd a nm
    · simp [hs] at hok
      subst hok; intro u hu; simp at hu
    · simp only [hs, if_neg, Bool.false_eq_true, if_false] at hok
      cases nm with
      | none => simp at hok
      | some name =>
        simp only at hok
        cases k with
        | none => simp at hok
        | some gk =>
          cases gk with
          | blob =>
            cases hc : check_conflict base (a ++ name)
                (.mk (some name) fm oid (some .blob) children) with
            | error er => rw [hc] at hok; simp at hok
            | ok _ =>
              rw [hc] at hok
              simp only [Except.ok.injEq] at hok
              subst hok
              intro u hu
              simp only [List.mem_singleton] at hu
              subst hu
              refine ⟨?_, rfl⟩
              have hpass := (skipEntry_eq_false_iff cd a (some name)).mp
                (Bool.not_eq_true _ ▸ (by simpa using hs))
              rcases hpass with hpre | ⟨ha, hn⟩
              · exact Or.inr (strStartsWith_append a name _ hpre)
              · left
                simp only [Option.some.injEq] at hn
                rw [ha, hn, str_empty_append]
          | tree =>
            exact walk_upsert_shape_forest cd base ((a ++ name) ++ "/") children us hok
          | commit => simp at hok
          | tag => simp at hok

theorem walk_upsert_shape_forest (cd : String) (base : Base) (a : String) :
    ∀ (f : GForest) (us : List Upsert), walkForest cd base a f = .ok us →
      ∀ u ∈ us, (u.path = cd ∨ strStartsWith u.path (cd ++ "/") = true)
        ∧ u.filemode = FILEMODE_BLOB
  | .nil, us, hok => by
    simp only [walkForest, Except.ok.injEq] at hok
    subst hok; intro u hu; simp at hu
  | .cons e f, us, hok => by
    unfold walkForest at hok
    cases he : walkEntry cd base a e with
    | error er => rw [he] at hok; simp at hok
    | ok us1 =>
      rw [he] at hok
      cases hf : walkForest cd base a f with
      | error er => rw [hf] at hok; simp at hok
      | ok vs =>
        rw [hf] at hok
        simp only [Except.ok.injEq] at hok
        subst hok
        intro u hu
        rcases List.mem_append.mp hu with h | h
        · exact walk_upsert_shape_entry cd base a e us1 he u h
        · exact walk_upsert_shape_forest cd base a f vs hf u h

end

theorem walkForest_append_err (cd : String) (base : Base) (a : String)
    (e : GEntry) (post : GForest) (er : MergeErr) :
    ∀ (pre : GForest) (us : List Upsert), walkForest cd base a pre = .ok us →
      walkEntry cd base a e = .error er →
      walkForest cd base a (pre.append (.cons e post)) = .error er
  | .nil, us, _, he => by
    simp only [GForest.append, walkForest, he]
  | .cons e0 f, us, hpre, he => by
    unfold walkForest at hpre
    cases h0 : walkEntry cd base a e0 with
    | error er0 => rw [h0] at hpre; simp at hpre
    | ok us0 =>
      rw [h0] at hpre
      cases hf : walkForest cd base a f with
      | error erf => rw [hf] at hpre; simp at hpre
      | ok vs =>
        have hrec := walkForest_append_err cd base a e post er f vs hf he
        simp only [GForest.append, walkForest, h0, hrec]

theorem check_conflict_mismatch (base : Base) (path : String) (e : GEntry) (o : BEntry)
    (ho : get_path base path = some o)
    (hmis : o.filemode ≠ e.filemode ∨ o.kind ≠ e.kind ∨ o.oid ≠ e.oid) :
    ∃ r, check_conflict base path e = .error (.conflict path r)
      ∧ (r = .filemode → o.filemode ≠ e.filemode)
      ∧ (r = .kind → o.kind ≠ e.kind)
      ∧ (r = .id → o.oid ≠ e.oid) := by
  unfold check_conflict
  rw [ho]
  by_cases h1 : o.filemode = e.filemode
  · by_cases h2 : o.kind = e.kind
    · by_cases h3 : o.oid = e.oid
      · exact absurd hmis (by simp [h1, h2, h3])
      · refine ⟨.id, ?_, by simp, by simp, fun _ => h3⟩
        simp [h1, h2, h3]
    · refine ⟨.kind, ?_, by simp, fun _ => h2, by simp⟩
      simp [h1, h2]
  · refine ⟨.filemode, ?_, fun _ => h1, by simp, by simp⟩
    simp [h1]

/-- C1: when the walk reaches a blob entry that passed the content-root
filter and whose full path already exists in the base tree with a different
filemode, kind or object id, that entry's processing aborts with a conflict
error naming the path and the first mismatched attribute; the abort
propagates through the enclosing walk past any previously successful
entries, `mergeInto` then produces no tree at all, and the merge loop
produces no commit and leaves the local head where it was. -/
theorem c1_conflict_aborts (cd a n : String) (base : Base) (fm oid : Nat)
    (children : GForest) (o : BEntry)
    (hskip : skipEntry cd a (some n) = false)
    (ho : get_path base (a ++ n) = some o)
    (hmis : o.filemode ≠ fm ∨ o.kind ≠ some GKind.blob ∨ o.oid ≠ oid) :
    ∃ r : ConflictReason,
      walkEntry cd base a (.mk (some n) fm oid (some .blob) children)
        = .error (.conflict (a ++ n) r)
      ∧ ((r = .filemode → o.filemode ≠ fm) ∧ (r = .kind → o.kind ≠ some GKind.blob)
          ∧ (r = .id → o.oid ≠ oid))
      ∧ MergeErr.msg (.conflict (a ++ n) r)
          = "conflicting path `" ++ (a ++ n) ++ "` (" ++ ConflictReason.txt r ++ ")"
      ∧ (∀ pre post us, walkForest cd base a pre = .ok us →
          walkForest cd base a
              (pre.append (.cons (.mk (some n) fm oid (some .blob) children) post))
            = .error (.conflict (a ++ n) r))
      ∧ (∀ inc er, walkForest cd base "" inc = .error er → mergeInto base inc cd = .error er)
      ∧ (∀ h fresh hd tr os er, walkForest cd base "" tr = .error er →
          mergeRun cd base h fresh ({ headOid := hd, tree := tr } :: os) = .error er) := by
  have hcc := check_conflict_mismatch base (a ++ n)
    (.mk (some n) fm oid (some .blob) children) o ho
    (by simpa [GEntry.filemode, GEntry.kind, GEntry.oid] using hmis)
  obtain ⟨r, hr, hf1, hf2, hf3⟩ := hcc
  have hwe : walkEntry cd base a (.mk (some n) fm oid (some .blob) children)
      = .error (.conflict (a ++ n) r) := by
    unfold walkEntry
    simp only [hskip, Bool.false_eq_true, if_false, hr]
  refine ⟨r, hwe, ⟨?_, ?_, ?_⟩, rfl, ?_, ?_, ?_⟩
  · intro h; simpa [GEntry.filemode] using hf1 h
  · intro h; simpa [GEntry.kind] using hf2 h
  · intro h; simpa [GEntry.oid] using hf3 h
  · intro pre post us hpre
    exact walkForest_append_err cd base a _ post _ pre us hpre hwe
  · intro inc er herr
    unfold mergeInto
    rw [herr]
  · intro h fresh hd tr os er herr
    unfold mergeRun
    rw [herr]

/-- C1 witness: a blob at `content/a.md` whose object id differs from the
base tree's entry there aborts with a conflict at that path. -/
theorem c1_conflict_aborts_witness :
    ∃ r : ConflictReason,
      walkEntry "content" [("content/a.md", ⟨33188, some .blob, 9⟩)] "content/"
          (.mk (some "a.md") 33188 7 (some .blob) .nil)
        = .error (.conflict "content/a.md" r) := by
  obtain ⟨r, h1, _⟩ := c1_conflict_aborts "content" "content/" "a.md"
    [("content/a.md", ⟨33188, some .blob, 9⟩)] 33188 7 .nil
    ⟨33188, some .blob, 9⟩ (by decide) (by decide) (by decide)
  exact ⟨r, h1⟩

/-- C2: the walk's skip condition lets an entry through exactly when its
parent path starts with the content root followed by a slash, or it is the
root-level entry named exactly like the content root; a skipped entry is
neither descended into nor upserted nor able to raise an error, a passing
tree entry is descended into, a passing blob entry is conflict-checked and
upserted, and every recorded upsert path is the content root itself or lies
strictly under it. -/
theorem c2_content_root_filter (cd : String) (base : Base) (a : String) :
    (∀ e : GEntry, skipEntry cd a e.name = true → walkEntry cd base a e = .ok [])
    ∧ (∀ nm : Option String,
        skipEntry cd a nm = false ↔
          (strStartsWith a (cd ++ "/") = true ∨ (a = "" ∧ nm = some cd)))
    ∧ (∀ n fm oid children, skipEntry cd a (some n) = false →
        walkEntry cd base a (.mk (some n) fm oid (some GKind.tree) children)
          = walkForest cd base ((a ++ n) ++ "/") children)
    ∧ (∀ n fm oid children, skipEntry cd a (some n) = false →
        walkEntry cd base a (.mk (some n) fm oid (some GKind.blob) children)
          = match check_conflict base (a ++ n)
              (.mk (some n) fm oid (some GKind.blob) children) with
            | .error er => .error er
            | .ok _ => .ok [⟨a ++ n, oid, FILEMODE_BLOB⟩])
    ∧ (∀ f us, walkForest cd base a f = .ok us →
        ∀ u ∈ us, u.path = cd ∨ strStartsWith u.path (cd ++ "/") = true) := by
  refine ⟨?_, ?_, ?_, ?_, ?_⟩
  · intro e hs
    cases e with
    | mk nm fm oid k children =>
      unfold walkEntry
      simp only [GEntry.name] at hs
      simp [hs]
  · intro nm
    exact skipEntry_eq_false_iff cd a nm
  · intro n fm oid children hs
    unfold walkEntry
    simp [hs]
  · intro n fm oid children hs
    unfold walkEntry
    simp [hs]
  · intro f us hok u hu
    exact (walk_upsert_shape_forest cd base a f us hok u hu).1

theorem walkForest_root_skip (cd : String) (T : Base) :
    ∀ inc : GForest, (∀ e ∈ inc.toList, e.name ≠ some cd) →
      walkForest cd T "" inc = .ok []
  | .nil, _ => by simp [walkForest]
  | .cons e f, hn => by
    have hskip : skipEntry cd "" e.name = true := by
      unfold skipEntry
      rw [strStartsWith_empty_slash]
      have hne : e.name ≠ some cd := hn e (by simp [GForest.toList])
      simp [hne]
    have he : walkEntry cd T "" e = .ok [] := by
      cases e with
      | mk nm fm oid k children =>
        unfold walkEntry
        simp only [GEntry.name] at hskip
        simp [hskip]
    have hf : walkForest cd T "" f = .ok [] := by
      apply walkForest_root_skip cd T f
      intro x hx
      exact hn x (by simp [GForest.toList, hx])
    unfold walkForest
    rw [he, hf]
    rfl

/-- C6: merging an incoming tree with nothing under the content root is the
identity: the empty tree, a tree with no root entry named like the content
root, and a tree whose content root is an empty subtree all merge into any
base tree unchanged, with no error. -/
theorem c6_empty_merge_identity (T : Base) (cd : String) :
    mergeInto T .nil cd = .ok T
    ∧ (∀ inc : GForest, (∀ e ∈ inc.toList, e.name ≠ some cd) →
        mergeInto T inc cd = .ok T)
    ∧ (∀ fm oid,
        mergeInto T (.cons (.mk (some cd) fm oid (some GKind.tree) .nil) .nil) cd
          = .ok T) := by
  have hroot := walkForest_root_skip cd T
  refine ⟨by simp [mergeInto, walkForest, create_updated], ?_, ?_⟩
  · intro inc hn
    unfold mergeInto
    rw [hroot inc hn]
    simp [create_updated]
  · intro fm oid
    have hskip : skipEntry cd "" (some cd) = false := by
      unfold skipEntry
      simp
    unfold mergeInto walkForest walkEntry
    simp [hskip, walkForest, create_updated]

/-- C6 witness: a root entry not named like the content root is discarded
and the base tree survives unchanged. -/
theorem c6_empty_merge_identity_witness :
    mergeInto [("x", ⟨33188, some .blob, 2⟩)]
        (.cons (.mk (some "other") 33188 5 (some .blob) .nil) .nil) "content"
      = .ok [("x", ⟨33188, some .blob, 2⟩)] := by
  exact (c6_empty_merge_identity [("x", ⟨33188, some .blob, 2⟩)] "content").2.1
    (.cons (.mk (some "other") 33188 5 (some .blob) .nil) .nil) (by decide)

/-- C9 counterexample: an incoming blob with the executable filemode 100755
(33261) is recorded and merged with the plain-blob filemode 100644 (33188),
not with its own mode, so the merged entry's mode differs from the incoming
entry's mode. -/
theorem c9_mode_counterexample :
    mergeInto [] (.cons (.mk (some "content") 16384 1 (some .tree)
        (.cons (.mk (some "a.md") 33261 7 (some .blob) .nil) .nil)) .nil) "content"
      = .ok [("content/a.md", ⟨33188, some .blob, 7⟩)]
    ∧ (33188 : Nat) ≠ 33261 := by
  constructor
  · decide
  · decide

/-- C9 amended: a passing, non-conflicting blob entry is recorded as an
upsert of its full path, its object id, and the constant `FileMode::Blob`
(100644); every upsert the walk ever records carries that constant filemode,
whatever the incoming entry's mode was. -/
theorem c9_upsert_mode (cd : String) (base : Base) (a : String) :
    (∀ n fm oid children, skipEntry cd a (some n) = false →
        check_conflict base (a ++ n)
            (.mk (some n) fm oid (some GKind.blob) children) = .ok () →
        walkEntry cd base a (.mk (some n) fm oid (some GKind.blob) children)
          = .ok [⟨a ++ n, oid, FILEMODE_BLOB⟩])
    ∧ (∀ f us, walkForest cd base a f = .ok us →
        ∀ u ∈ us, u.filemode = FILEMODE_BLOB) := by
  constructor
  · intro n fm oid children hs hc
    unfold walkEntry
    simp [hs, hc]
  · intro f us hok u hu
    exact (walk_upsert_shape_forest cd base a f us hok u hu).2

/-- C3: every successful run of the merge loop makes exactly one commit per
other repository; each commit has exactly two parents, the first being the
local head as it stood before that commit (the initial local head for the
first commit, the previous merge commit thereafter) and the second being the
fetched head of the other repository merged there; and the final local head
is the last commit made (or the initial head when there was nothing to
merge). -/
theorem c3_merge_commit_parents (cd : String) (mt : Base) :
    ∀ (os : List OtherRepo) (h fresh : Nat) (cs : List CommitRec) (h' : Nat),
      mergeRun cd mt h fresh os = .ok (cs, h') →
      cs.length = os.length ∧ parentsOk h cs os
        ∧ (∀ c ∈ cs, c.parents.length = 2) ∧ h' = lastHead h cs := by
  intro os
  induction os with
  | nil =>
    intro h fresh cs h' hok
    unfold mergeRun at hok
    simp only [Except.ok.injEq, Prod.mk.injEq] at hok
    obtain ⟨hcs, hh⟩ := hok
    subst hcs; subst hh
    exact ⟨rfl, trivial, by simp, rfl⟩
  | cons o os ih =>
    intro h fresh cs h' hok
    unfold mergeRun at hok
    cases hw : walkForest cd mt "" o.tree with
    | error er => rw [hw] at hok; simp at hok
    | ok us =>
      rw [hw] at hok
      cases hrec : mergeRun cd mt fresh (fresh + 1) os with
      | error er => simp only [hrec] at hok; simp at hok
      | ok p =>
        obtain ⟨cs0, hh0⟩ := p
        simp only [hrec, Except.ok.injEq, Prod.mk.injEq] at hok
        obtain ⟨hcs, hh⟩ := hok
        obtain ⟨hlen, hpar, htwo, hlast⟩ := ih fresh (fresh + 1) cs0 hh0 hrec
        subst hcs
        subst hh
        refine ⟨by simp [hlen], ⟨rfl, hpar⟩, ?_, by simpa [lastHead] using hlast⟩
        intro c hc
        rcases List.mem_cons.mp hc with hc | hc
        · subst hc; rfl
        · exact htwo c hc

/-- C3 witness: one other repository with an empty tree yields exactly one
merge commit with parents [initial head, other head], and the head advances
to it. -/
theorem c3_merge_commit_parents_witness :
    parentsOk 1 [⟨10, [], [1, 42]⟩] [⟨42, GForest.nil⟩]
      ∧ (10 : Nat) = lastHead 1 [⟨10, [], [1, 42]⟩] := by
  have h := c3_merge_commit_parents "content" [] [⟨42, .nil⟩] 1 10
    [⟨10, [], [1, 42]⟩] 10 (by decide)
  exact ⟨h.2.1, h.2.2.2⟩

theorem get_path_ne_none_mem (t : Base) (p : String) (h : get_path t p ≠ none) :
    p ∈ keysOf t := by
  induction t with
  | nil => simp [get_path] at h
  | cons x t ih =>
    obtain ⟨q, e⟩ := x
    by_cases hq : q = p
    · simp [keysOf, hq]
    · simp only [get_path, hq, if_false] at h
      simp [keysOf] at ih ⊢
      exact Or.inr (by simpa [keysOf] using ih h)

theorem mem_diffNewPaths (old new : Base) (p : String) :
    p ∈ diffNewPaths old new ↔ get_path old p ≠ get_path new p := by
  unfold diffNewPaths
  rw [List.mem_filter]
  constructor
  · intro ⟨_, hd⟩
    exact of_decide_eq_true hd
  · intro hne
    refine ⟨List.mem_dedup.mpr ?_, decide_eq_true hne⟩
    rw [List.mem_append]
    by_cases ho : get_path old p = none
    · right
      apply get_path_ne_none_mem
      rw [ho] at hne
      exact fun hn => hne hn.symm
    · left
      exact get_path_ne_none_mem old p ho

/-- C4: a successful `changed_files` run computed the merge base of the
local and upstream heads and diffed the merge base's tree against the local
head's tree; a path is returned exactly when those two trees disagree at it,
so in particular any path whose entry at the local head equals its entry at
the merge base is absent from the result. -/
theorem c4_changed_files_diff (r : RepoModel) :
    ∀ (localHead upstreamHead : Nat) (ps : List String),
      changed_files r localHead upstreamHead = some ps →
      ∃ mb merge_base_tree master_tree,
        r.mergeBaseOf localHead upstreamHead = some mb
        ∧ commitTree r.commits mb = some merge_base_tree
        ∧ commitTree r.commits localHead = some master_tree
        ∧ ∀ p, p ∈ ps ↔ get_path merge_base_tree p ≠ get_path master_tree p := by
  intro localHead upstreamHead ps hok
  unfold changed_files at hok
  cases hmb : r.mergeBaseOf localHead upstreamHead with
  | none => simp only [hmb] at hok; simp at hok
  | some mb =>
    simp only [hmb] at hok
    cases hbt : commitTree r.commits mb with
    | none => simp only [hbt] at hok; simp at hok
    | some bt =>
      simp only [hbt] at hok
      cases hlt : commitTree r.commits localHead with
      | none => simp only [hlt] at hok; simp at hok
      | some lt =>
        simp only [hlt, Option.some.injEq] at hok
        subst hok
        exact ⟨mb, bt, lt, rfl, hbt, rfl, fun p => mem_diffNewPaths bt lt p⟩

/-- C4 witness: with a merge base whose tree differs from the local head's
tree at `a` (changed blob) and `b` (new file), exactly those paths are
returned. -/
theorem c4_changed_files_diff_witness :
    ∃ mb merge_base_tree master_tree,
      RepoModel.mergeBaseOf
          ⟨[(1, [("a", ⟨33188, some .blob, 1⟩)]),
            (2, [("a", ⟨33188, some .blob, 2⟩), ("b", ⟨33188, some .blob, 3⟩)])],
            fun _ _ => some 1⟩ 2 5 = some mb
      ∧ commitTree [(1, [("a", ⟨33188, some .blob, 1⟩)]),
            (2, [("a", ⟨33188, some .blob, 2⟩), ("b", ⟨33188, some .blob, 3⟩)])] mb
          = some merge_base_tree
      ∧ commitTree [(1, [("a", ⟨33188, some .blob, 1⟩)]),
            (2, [("a", ⟨33188, some .blob, 2⟩), ("b", ⟨33188, some .blob, 3⟩)])] 2
          = some master_tree
      ∧ ∀ p, p ∈ ["a", "b"] ↔ get_path merge_base_tree p ≠ get_path master_tree p := by
  exact c4_changed_files_diff
    ⟨[(1, [("a", ⟨33188, some .blob, 1⟩)]),
      (2, [("a", ⟨33188, some .blob, 2⟩), ("b", ⟨33188, some .blob, 3⟩)])],
      fun _ _ => some 1⟩ 2 5 ["a", "b"] (by decide)

/-- C5 counterexample: with build directory name `build`, the status entry
`build/a.md` lies underneath the build directory, yet `check_dirty` fails
with `Dirty` on it, because the code tests whether the trimmed path merely
ends with the directory name, which `build/a.md` does not. -/
theorem c5_dirty_counterexample :
    specUnderBuildDir "build" "build/a.md" = true
    ∧ check_dirty "build" [⟨some "build/a.md"⟩] = .error .dirty := by
  constructor
  · decide
  · decide

/-- C5 amended: `check_dirty` fails with `Dirty` exactly when some status
entry has a representable path that, after trimming trailing slashes, does
not end with the build-directory name. The exclusion is a string-suffix
test, not directory containment: an entry strictly inside the build
directory (e.g. `build/a.md`) still triggers `Dirty`, while any entry whose
trimmed path merely ends with the name (e.g. `rebuild`, or the directory
entry `build/` itself) is excluded wherever it lies. -/
theorem c5_dirty_iff (bd : String) (sts : List StatusEntry) :
    check_dirty bd sts = .error .dirty ↔
      ∃ e ∈ sts, ∃ p, e.path = some p
        ∧ strEndsWith (trimEndSlashes p) bd = false := by
  unfold check_dirty
  by_cases h : sts.any (dirtyFilter bd)
  · simp only [h, if_true, true_iff]
    obtain ⟨e, he, hf⟩ := List.any_eq_true.mp h
    refine ⟨e, he, ?_⟩
    unfold dirtyFilter at hf
    cases hp : e.path with
    | none => rw [hp] at hf; simp at hf
    | some p =>
      rw [hp] at hf
      simp only [Bool.not_eq_true'] at hf
      exact ⟨p, rfl, hf⟩
  · simp only [h, if_false, Bool.false_eq_true]
    constructor
    · intro hc; exact absurd hc (by simp)
    · intro ⟨e, he, p, hp, hs⟩
      exfalso
      apply h
      apply List.any_eq_true.mpr
      refine ⟨e, he, ?_⟩
      simp [dirtyFilter, hp, hs]

/-- C10: a status entry whose path is unavailable is silently treated as
clean: deleting all pathless entries never changes the outcome of
`check_dirty`, and a status list consisting only of pathless entries never
fails with `Dirty`, whatever those entries represent. -/
theorem c10_pathless_entries_clean (bd : String) (sts : List StatusEntry) :
    check_dirty bd sts = check_dirty bd (sts.filter (fun e => e.path.isSome))
    ∧ check_dirty bd (sts.filter (fun e => e.path.isNone)) = .ok () := by
  constructor
  · unfold check_dirty
    have hany : sts.any (dirtyFilter bd)
        = (sts.filter (fun e => e.path.isSome)).any (dirtyFilter bd) := by
      induction sts with
      | nil => rfl
      | cons e t ih =>
        cases hp : e.path with
        | none =>
          have hf : dirtyFilter bd e = false := by unfold dirtyFilter; rw [hp]
          simp [List.filter, hp, hf, ih]
        | some p =>
          simp [List.filter, hp, ih]
    rw [hany]
  · unfold check_dirty
    have hany : (sts.filter (fun e => e.path.isNone)).any (dirtyFilter bd) = false := by
      rw [Bool.eq_false_iff]
      intro hc
      obtain ⟨e, he, hf⟩ := List.any_eq_true.mp hc
      have hnone : e.path.isNone := (List.mem_filter.mp he).2
      unfold dirtyFilter at hf
      cases hp : e.path with
      | none => rw [hp] at hf; simp at hf
      | some p => rw [hp] at hnone; simp at hnone
    rw [hany]
    rfl

/-- C7: `Cache::repo` resolves the cache directory for the key
`"git\0" ++ url`; a commit that already resolves locally is returned with no
fetch; a commit that does not resolve triggers exactly one fetch of `master`
from the url followed by exactly one retry, failing if still unresolved;
every successful call performs at most one fetch and checks out an object
the resulting state resolves the commit to, so a second call on the
resulting state performs no fetch at all. -/
theorem c7_cache_repo (dirOf : String → String) (loc : GitRepoState) (rem : Remote)
    (url commit : String) :
    (∀ res, cacheRepo dirOf loc rem url commit = .ok res →
      res.dir = dirOf (cacheRepoKey url) ∧ res.fetches ≤ 1
        ∧ revparse_single res.state commit = some res.checkedOut)
    ∧ (∀ o, revparse_single loc commit = some o →
        cacheRepo dirOf loc rem url commit = .ok ⟨dirOf (cacheRepoKey url), loc, o, 0⟩)
    ∧ (revparse_single loc commit = none →
        ∀ o, revparse_single (fetchMaster loc rem) commit = some o →
          cacheRepo dirOf loc rem url commit
            = .ok ⟨dirOf (cacheRepoKey url), fetchMaster loc rem, o, 1⟩)
    ∧ (revparse_single loc commit = none →
        revparse_single (fetchMaster loc rem) commit = none →
        cacheRepo dirOf loc rem url commit = .error .unresolved)
    ∧ (∀ res, cacheRepo dirOf loc rem url commit = .ok res →
        cacheRepo dirOf res.state rem url commit
          = .ok ⟨res.dir, res.state, res.checkedOut, 0⟩) := by
  have hchar : ∀ res, cacheRepo dirOf loc rem url commit = .ok res →
      res.dir = dirOf (cacheRepoKey url) ∧ res.fetches ≤ 1
        ∧ revparse_single res.state commit = some res.checkedOut := by
    intro res hok
    unfold cacheRepo at hok
    cases h1 : revparse_single loc commit with
    | some o =>
      rw [h1] at hok
      simp only [Except.ok.injEq] at hok
      subst hok
      exact ⟨rfl, by simp, h1⟩
    | none =>
      rw [h1] at hok
      cases h2 : revparse_single (fetchMaster loc rem) commit with
      | some o =>
        simp only [h2, Except.ok.injEq] at hok
        subst hok
        exact ⟨rfl, by simp, h2⟩
      | none => simp only [h2] at hok; simp at hok
  refine ⟨hchar, ?_, ?_, ?_, ?_⟩
  · intro o h1
    unfold cacheRepo
    rw [h1]
  · intro h1 o h2
    unfold cacheRepo
    rw [h1]
    simp only [h2]
  · intro h1 h2
    unfold cacheRepo
    rw [h1]
    simp only [h2]
  · intro res hok
    obtain ⟨hdir, _, hres⟩ := hchar res hok
    unfold cacheRepo
    rw [hres, hdir]

/-- C8: `identify` returns a family exactly when exactly that family's
fingerprint commit resolves; when the two fingerprints both resolve or both
fail to resolve, it fails with an error carrying, for each family, whether
its fingerprint resolved — `{false, false}` when neither does. -/
theorem c8_identify_exactly_one (resolves : String → Bool) :
    (∀ f, identify resolves = .ok f ↔
        ((f = .eips ∧ resolves EIP_COMMIT = true ∧ resolves ERC_COMMIT = false)
          ∨ (f = .ercs ∧ resolves EIP_COMMIT = false ∧ resolves ERC_COMMIT = true)))
    ∧ (resolves EIP_COMMIT = resolves ERC_COMMIT →
        identify resolves = .error (.identify (resolves EIP_COMMIT) (resolves ERC_COMMIT))) := by
  cases heip : resolves EIP_COMMIT with
  | true =>
    cases herc : resolves ERC_COMMIT with
    | true =>
      refine ⟨?_, fun _ => by simp [identify, heip, herc]⟩
      intro f
      simp [identify, heip, herc]
    | false =>
      refine ⟨?_, fun hc => by simp [heip, herc] at hc⟩
      intro f
      cases f with
      | eips => simp [identify, heip, herc]
      | ercs => simp [identify, heip, herc]
  | false =>
    cases herc : resolves ERC_COMMIT with
    | true =>
      refine ⟨?_, fun hc => by simp [heip, herc] at hc⟩
      intro f
      cases f with
      | eips => simp [identify, heip, herc]
      | ercs => simp [identify, heip, herc]
    | false =>
      refine ⟨?_, fun _ => by simp [identify, heip, herc]⟩
      intro f
      simp [identify, heip, herc]

end EipsPre
